import Mathlib

/-! Formal model of the hot-potato charm (src/charm.py): the token record
exchanged between units, the `Forward.forward` hand-off engine, the unit
status strings it produces, and the JSON codec used on the relation wire.
Python floats are modelled as rationals, Python ints as integers. -/

/-- The token dict built in `_on_start_action` (charm.py lines 170-176) and
passed between units over the `players` relation. -/
structure Token where
  message : String
  holder : String
  times_passed : Int
  time_elapsed : Rat
  timestamp : Rat
deriving Repr, DecidableEq

/-- Failures of `Forward.forward`: `emptyPeerSet` models the `ValueError`
raised by `random.randint(0, -1)` at charm.py line 51 when the peer list is
empty, and `stackOverflow` models Python's `RecursionError` when the
self-forwarding recursive call at line 63 exceeds the available call-stack
depth (the model's fuel). -/
inductive ForwardErr where
  | emptyPeerSet
  | stackOverflow
deriving Repr, DecidableEq

/-- Observable outcome of a successful `Forward.forward` call: the returned
value (`sent`, `none` for Python `None`), the token dict after its in-place
mutations (`final`), every `unit.status` string set during the call in
chronological order (`statusTrace`), and the `times_passed` and
`time_elapsed` values after each completed hop. -/
structure ForwardResult where
  sent : Option Token
  final : Token
  statusTrace : List String
  passTrace : List Int
  elapsedTrace : List Rat
deriving Repr, DecidableEq

/-- The decimal digit characters. -/
def digitChar : Nat → Char
  | 0 => '0' | 1 => '1' | 2 => '2' | 3 => '3' | 4 => '4'
  | 5 => '5' | 6 => '6' | 7 => '7' | 8 => '8' | _ => '9'

/-- Decimal digits of a natural number, most significant first, as produced
by Python `str`/`repr` and by `json.dumps` for non-negative `int` values. -/
def natChars (n : Nat) : List Char :=
  if _h : n < 10 then [digitChar n]
  else natChars (n / 10) ++ [digitChar (n % 10)]
termination_by n
decreasing_by exact Nat.div_lt_self (by omega) (by omega)

/-- Decimal rendering of a natural number. -/
def renderNat (n : Nat) : String :=
  String.mk (natChars n)

/-- Python `str`/`repr` of an `int`, also the form `json.dumps` emits. -/
def renderInt (i : Int) : String :=
  if i < 0 then "-" ++ renderNat i.natAbs else renderNat i.natAbs

/-- Exactly `k` decimal digits of `m` (zero padded, most significant first). -/
def padChars : Nat → Nat → List Char
  | 0, _ => []
  | k + 1, m => padChars k (m / 10) ++ [digitChar (m % 10)]

/-- The Python format `f"{x:.2f}"`: the value rounded to two decimal places
and rendered with exactly two fraction digits. -/
def fmt2 (q : Rat) : String :=
  let n : Int := round (q * 100)
  let sign := if n < 0 then "-" else ""
  let a := n.natAbs
  sign ++ renderNat (a / 100) ++ "." ++ String.mk (padChars 2 (a % 100))

/-- The completion status set at charm.py lines 36-39, built from the token
exactly as received. -/
def termStatus (token : Token) : String :=
  "Maximum passes reached. Time to completion is " ++ fmt2 token.time_elapsed ++ " seconds."

/-- The mid-hop status set at charm.py lines 45-50, built from the token
before any mutation of the hop. -/
def hopStatus (token : Token) : String :=
  "M: " ++ token.message ++ ", H: " ++ token.holder ++ ", P: " ++
    renderInt token.times_passed ++ ", T: " ++ fmt2 token.time_elapsed

/-- The termination test at charm.py lines 34-35: `max_passes` is set, the
pass count equals it exactly, and the local unit holds the token. -/
def isTerminal (token : Token) (selfName : String) (maxPasses : Option Int) : Bool :=
  match maxPasses with
  | none => false
  | some n => token.times_passed == n && token.holder == selfName

/-- One hand-off (charm.py lines 51-55): pick the next holder from `peers`
by the injected random draw, increment the pass counter, fold the wall-clock
delta into the elapsed time and restamp the token.  `rnd step % peers.length`
models `random.randint(0, len(peers)-1)`, which always yields a valid index
of a non-empty list; the `getD` default is never reached there. -/
def hopToken (token : Token) (peers : List String) (rnd : Nat → Nat)
    (clock : Nat → Rat) (step : Nat) : Token :=
  { token with
    holder := peers.getD (rnd step % peers.length) ""
    times_passed := token.times_passed + 1
    time_elapsed := token.time_elapsed + (clock step - token.timestamp)
    timestamp := clock step }

/-- The forward engine `Forward.forward` (charm.py lines 24-66).  The random
source and the clock are injected as streams indexed by the hop number
`step`, one draw and one `time.time()` reading per hop; `fuel` is the
remaining call-stack depth available to the self-forwarding recursive call
at line 63.  `delay` only blocks the thread (lines 56-57) and has no effect
on the returned state. -/
def forward (fuel : Nat) (token : Token) (peers : List String) (selfName : String)
    (delay : Rat) (maxPasses : Option Int) (rnd : Nat → Nat) (clock : Nat → Rat)
    (step : Nat) : Except ForwardErr ForwardResult :=
  if isTerminal token selfName maxPasses then
    .ok ⟨none, token, [termStatus token], [], []⟩
  else if token.holder ≠ selfName then
    .ok ⟨none, token, [], [], []⟩
  else if peers = [] then
    .error .emptyPeerSet
  else
    let token' := hopToken token peers rnd clock step
    if token'.holder = selfName then
      match fuel with
      | 0 => .error .stackOverflow
      | fuel' + 1 =>
        match forward fuel' token' peers selfName delay maxPasses rnd clock (step + 1) with
        | .error e => .error e
        | .ok r => .ok ⟨r.sent, r.final, hopStatus token :: "" :: r.statusTrace,
            token'.times_passed :: r.passTrace, token'.time_elapsed :: r.elapsedTrace⟩
    else
      .ok ⟨some token', token', [hopStatus token, ""], [token'.times_passed], [token'.time_elapsed]⟩

/-- Hexadecimal digit characters, lowercase as Python's `json.dumps` emits
them inside `\uXXXX` escapes. -/
def hexChar (n : Nat) : Char :=
  if n < 10 then digitChar n
  else if n = 10 then 'a'
  else if n = 11 then 'b'
  else if n = 12 then 'c'
  else if n = 13 then 'd'
  else if n = 14 then 'e'
  else 'f'

/-- Four-digit hexadecimal rendering of a code unit, as in `\uXXXX`. -/
def hex4 (n : Nat) : List Char :=
  [hexChar (n / 4096 % 16), hexChar (n / 256 % 16), hexChar (n / 16 % 16), hexChar (n % 16)]

/-- Escape of one character by `json.dumps` with its default
`ensure_ascii=True`: printable ASCII except the quote and the backslash is
kept literal, the common controls get their two-character escapes, and every
other character becomes `\uXXXX` code units — non-BMP characters as a
surrogate pair. -/
def escChar (c : Char) : List Char :=
  if c = '"' then ['\\', '"']
  else if c = '\\' then ['\\', '\\']
  else if c.toNat = 8 then ['\\', 'b']
  else if c.toNat = 9 then ['\\', 't']
  else if c.toNat = 10 then ['\\', 'n']
  else if c.toNat = 12 then ['\\', 'f']
  else if c.toNat = 13 then ['\\', 'r']
  else if 32 ≤ c.toNat ∧ c.toNat ≤ 126 then [c]
  else if c.toNat < 65536 then '\\' :: 'u' :: hex4 c.toNat
  else
    '\\' :: 'u' :: hex4 (55296 + (c.toNat - 65536) / 1024) ++
      ('\\' :: 'u' :: hex4 (56320 + (c.toNat - 65536) % 1024))

/-- JSON escaping of a character list. -/
def escapeChars : List Char → List Char
  | [] => []
  | c :: cs => escChar c ++ escapeChars cs

/-- JSON string escaping of a whole string. -/
def escapeString (s : String) : String :=
  String.mk (escapeChars s.data)

/-- Decimal rendering of a Python float holding the rational `q`: sign,
integer part, a dot, then the `q.den` fraction digits of `q` scaled by
`10 ^ q.den`.  For every value a float can hold (a dyadic rational, whose
denominator divides that power of ten) this is exact, plain decimal
notation, as Python's `repr` of a float is; only the number of digits kept
differs, which the decoder does not care about. -/
def renderRat (q : Rat) : String :=
  (if (q * (10 : Rat) ^ q.den).num < 0 then "-" else "") ++
    renderNat ((q * (10 : Rat) ^ q.den).num.natAbs / 10 ^ q.den) ++ "." ++
    String.mk (padChars q.den ((q * (10 : Rat) ^ q.den).num.natAbs % 10 ^ q.den))

/-- The serialized token produced by `_Codec.dumps` (charm.py lines 70-71),
i.e. Python `json.dumps` of the token dict: keys in construction order, the
default `", "` and `": "` separators, strings escaped, numbers in decimal. -/
def dumpsToken (t : Token) : String :=
  "\x7b\"message\": \"" ++ escapeString t.message ++
    "\", \"holder\": \"" ++ escapeString t.holder ++
    "\", \"times_passed\": " ++ renderInt t.times_passed ++
    ", \"time_elapsed\": " ++ renderRat t.time_elapsed ++
    ", \"timestamp\": " ++ renderRat t.timestamp ++ "\x7d"

/-- Recognizer for a fixed chunk of wire text: consumes it or fails. -/
def expectChunk : List Char → List Char → Option (List Char)
  | [], s => some s
  | _ :: _, [] => none
  | p :: ps, c :: cs => if c = p then expectChunk ps cs else none

/-- Numeric value of a hexadecimal digit, either case accepted as by
`json.loads`. -/
def hexVal (c : Char) : Option Nat :=
  if 48 ≤ c.toNat ∧ c.toNat ≤ 57 then some (c.toNat - 48)
  else if 97 ≤ c.toNat ∧ c.toNat ≤ 102 then some (c.toNat - 87)
  else if 65 ≤ c.toNat ∧ c.toNat ≤ 70 then some (c.toNat - 55)
  else none

/-- Value of the four hex digits of a `\uXXXX` escape. -/
def hex4Val (a b c d : Char) : Option Nat :=
  match hexVal a, hexVal b, hexVal c, hexVal d with
  | some x, some y, some z, some w => some (x * 4096 + y * 256 + z * 16 + w)
  | _, _, _, _ => none

/-- Prepend a decoded character to a string-body parse. -/
def consParse (c : Char) : Option (List Char × List Char) → Option (List Char × List Char)
  | none => none
  | some (cs, rest) => some (c :: cs, rest)

/-- Decoder of one escape sequence after the backslash, as `json.loads`
reads it: the short escapes, and `\uXXXX` code units with a surrogate pair
recombined into one character.  Returns the decoded character and the rest. -/
def escDecode : List Char → Option (Char × List Char)
  | [] => none
  | e :: r =>
    if e = '"' then some ('"', r)
    else if e = '\\' then some ('\\', r)
    else if e = '/' then some ('/', r)
    else if e = 'b' then some (Char.ofNat 8, r)
    else if e = 'f' then some (Char.ofNat 12, r)
    else if e = 'n' then some ('\n', r)
    else if e = 'r' then some ('\r', r)
    else if e = 't' then some ('\t', r)
    else if e = 'u' then
      match r with
      | a :: b :: c2 :: d :: r2 =>
        match hex4Val a b c2 d with
        | none => none
        | some n =>
          if 55296 ≤ n ∧ n ≤ 56319 then
            match r2 with
            | x :: y :: a2 :: b2 :: c3 :: d2 :: r3 =>
              if x = '\\' ∧ y = 'u' then
                match hex4Val a2 b2 c3 d2 with
                | none => none
                | some m =>
                  if 56320 ≤ m ∧ m ≤ 57343 then
                    some (Char.ofNat (65536 + (n - 55296) * 1024 + (m - 56320)), r3)
                  else none
              else none
            | _ => none
          else some (Char.ofNat n, r2)
      | _ => none
    else none

/-- Decoder of a JSON string body up to and including its closing quote:
literal characters, or a backslash followed by an escape.  The fuel bounds
the number of characters produced; the wrapper passes the input length,
which every input reaching the closing quote stays within. -/
def parseStrBodyAux : Nat → List Char → Option (List Char × List Char)
  | 0, _ => none
  | fuel + 1, s =>
    match s with
    | [] => none
    | c :: rest =>
      if c = '"' then some ([], rest)
      else if c = '\\' then
        match escDecode rest with
        | none => none
        | some (d, r) => consParse d (parseStrBodyAux fuel r)
      else consParse c (parseStrBodyAux fuel rest)

/-- Decoder of a JSON string body, as `json.loads` reads one. -/
def parseStrBody (s : List Char) : Option (List Char × List Char) :=
  parseStrBodyAux s.length s

/-- Is this a decimal digit character. -/
def isDigitCh (c : Char) : Bool :=
  48 ≤ c.toNat && c.toNat ≤ 57

/-- Maximal run of decimal digits: the value accumulated onto `acc`, the
count of digits consumed, and the rest of the input. -/
def takeDigits : List Char → Nat → Nat × Nat × List Char
  | [], acc => (acc, 0, [])
  | c :: cs, acc =>
    if isDigitCh c then
      match takeDigits cs (acc * 10 + (c.toNat - 48)) with
      | (v, len, rest) => (v, len + 1, rest)
    else (acc, 0, c :: cs)

/-- At least one decimal digit, as `json.loads` requires: the value, the
digit count, and the rest of the input. -/
def parseDigits : List Char → Option (Nat × Nat × List Char)
  | [] => none
  | c :: cs =>
    if isDigitCh c then
      match takeDigits cs (c.toNat - 48) with
      | (v, len, rest) => some (v, len + 1, rest)
    else none

/-- JSON integer: an optional minus sign and digits, yielding the Python
`int` that `json.loads` builds for an undotted numeral. -/
def parseIntJ (s : List Char) : Option (Int × List Char) :=
  match s with
  | [] => none
  | c :: cs =>
    if c = '-' then
      match parseDigits cs with
      | none => none
      | some (v, _, rest) => some (-(v : Int), rest)
    else
      match parseDigits (c :: cs) with
      | none => none
      | some (v, _, rest) => some ((v : Int), rest)

/-- Unsigned JSON number with an optional fraction, yielding the rational
value the decoded Python float holds. -/
def parseNumAbs (s : List Char) : Option (Rat × List Char) :=
  match parseDigits s with
  | none => none
  | some (ip, _, s2) =>
    match s2 with
    | '.' :: s3 =>
      match parseDigits s3 with
      | none => none
      | some (fp, k, s4) => some ((ip : Rat) + (fp : Rat) / (10 : Rat) ^ k, s4)
    | _ => some ((ip : Rat), s2)

/-- JSON number with an optional sign and fraction. -/
def parseNum (s : List Char) : Option (Rat × List Char) :=
  match s with
  | [] => none
  | c :: cs =>
    if c = '-' then
      match parseNumAbs cs with
      | none => none
      | some (q, rest) => some (-q, rest)
    else parseNumAbs (c :: cs)

/-- The fixed wire text opening the object and naming `message`. -/
def chunkMsg : List Char := "\x7b\"message\": \"".data

/-- The fixed wire text between the `message` and `holder` values. -/
def chunkHolder : List Char := ", \"holder\": \"".data

/-- The fixed wire text between the `holder` and `times_passed` values. -/
def chunkPasses : List Char := ", \"times_passed\": ".data

/-- The fixed wire text between `times_passed` and `time_elapsed`. -/
def chunkElapsed : List Char := ", \"time_elapsed\": ".data

/-- The fixed wire text between `time_elapsed` and `timestamp`. -/
def chunkStamp : List Char := ", \"timestamp\": ".data

/-- The fixed wire text closing the object. -/
def chunkEnd : List Char := "\x7d".data

/-- Decoder of the wire format produced by `dumpsToken` — the behaviour of
`_Codec.loads` (Python `json.loads`, charm.py lines 73-74) on the token
objects this charm exchanges: the same object shape, keys in the same
order, with the string, integer and number grammars of JSON. -/
def loadsToken (s : String) : Option Token := do
  let s1 ← expectChunk chunkMsg s.data
  let (msg, s2) ← parseStrBody s1
  let s3 ← expectChunk chunkHolder s2
  let (hld, s4) ← parseStrBody s3
  let s5 ← expectChunk chunkPasses s4
  let (tp, s6) ← parseIntJ s5
  let s7 ← expectChunk chunkElapsed s6
  let (te, s8) ← parseNum s7
  let s9 ← expectChunk chunkStamp s8
  let (ts, s10) ← parseNum s9
  let s11 ← expectChunk chunkEnd s10
  if s11 = [] then some ⟨String.mk msg, String.mk hld, tp, te, ts⟩ else none

/-- Branch lemma: the termination check (decision step 1) fires. -/
theorem forward_terminal_eq (fuel : Nat) (token : Token) (peers : List String)
    (selfName : String) (delay : Rat) (maxPasses : Option Int) (rnd : Nat → Nat)
    (clock : Nat → Rat) (step : Nat)
    (hT : isTerminal token selfName maxPasses = true) :
    forward fuel token peers selfName delay maxPasses rnd clock step =
      .ok ⟨none, token, [termStatus token], [], []⟩ := by
  rw [forward]
  simp [hT]

/-- Branch lemma: the local unit is not the holder (decision step 2). -/
theorem forward_stale_eq (fuel : Nat) (token : Token) (peers : List String)
    (selfName : String) (delay : Rat) (maxPasses : Option Int) (rnd : Nat → Nat)
    (clock : Nat → Rat) (step : Nat)
    (hT : isTerminal token selfName maxPasses = false)
    (hH : token.holder ≠ selfName) :
    forward fuel token peers selfName delay maxPasses rnd clock step =
      .ok ⟨none, token, [], [], []⟩ := by
  rw [forward]
  simp [hT, hH]

/-- Branch lemma: the hand-off is reached with no peers to select from. -/
theorem forward_empty_eq (fuel : Nat) (token : Token) (selfName : String)
    (delay : Rat) (maxPasses : Option Int) (rnd : Nat → Nat) (clock : Nat → Rat)
    (step : Nat) (hT : isTerminal token selfName maxPasses = false)
    (hH : token.holder = selfName) :
    forward fuel token [] selfName delay maxPasses rnd clock step =
      .error .emptyPeerSet := by
  rw [forward]
  simp [hT, hH]

/-- Branch lemma: the hop selects a different holder and the updated token is
returned for transmission. -/
theorem forward_send_eq (fuel : Nat) (token : Token) (peers : List String)
    (selfName : String) (delay : Rat) (maxPasses : Option Int) (rnd : Nat → Nat)
    (clock : Nat → Rat) (step : Nat)
    (hT : isTerminal token selfName maxPasses = false)
    (hH : token.holder = selfName) (hp : peers ≠ [])
    (hs : (hopToken token peers rnd clock step).holder ≠ selfName) :
    forward fuel token peers selfName delay maxPasses rnd clock step =
      .ok ⟨some (hopToken token peers rnd clock step), hopToken token peers rnd clock step,
        [hopStatus token, ""], [(hopToken token peers rnd clock step).times_passed],
        [(hopToken token peers rnd clock step).time_elapsed]⟩ := by
  rw [forward]
  simp [hT, hH, hp, hs]

/-- Branch lemma: the hop re-selects the local unit with no stack room left
for the recursive call. -/
theorem forward_self_zero (token : Token) (peers : List String)
    (selfName : String) (delay : Rat) (maxPasses : Option Int) (rnd : Nat → Nat)
    (clock : Nat → Rat) (step : Nat)
    (hT : isTerminal token selfName maxPasses = false)
    (hH : token.holder = selfName) (hp : peers ≠ [])
    (hs : (hopToken token peers rnd clock step).holder = selfName) :
    forward 0 token peers selfName delay maxPasses rnd clock step =
      .error .stackOverflow := by
  rw [forward]
  simp [hT, hH, hp, hs]

/-- Branch lemma: the hop re-selects the local unit and the engine recurses
on the updated token with one stack frame consumed. -/
theorem forward_self_succ (fuel : Nat) (token : Token) (peers : List String)
    (selfName : String) (delay : Rat) (maxPasses : Option Int) (rnd : Nat → Nat)
    (clock : Nat → Rat) (step : Nat)
    (hT : isTerminal token selfName maxPasses = false)
    (hH : token.holder = selfName) (hp : peers ≠ [])
    (hs : (hopToken token peers rnd clock step).holder = selfName) :
    forward (fuel + 1) token peers selfName delay maxPasses rnd clock step =
      match forward fuel (hopToken token peers rnd clock step) peers selfName delay
          maxPasses rnd clock (step + 1) with
      | .error e => .error e
      | .ok r => .ok ⟨r.sent, r.final,
          hopStatus token :: "" :: r.statusTrace,
          (hopToken token peers rnd clock step).times_passed :: r.passTrace,
          (hopToken token peers rnd clock step).time_elapsed :: r.elapsedTrace⟩ := by
  rw [forward]
  simp [hT, hH, hp, hs]

/-- In the single-peer topology the hop always re-selects the only peer. -/
theorem hopToken_single_holder (token : Token) (s : String) (rnd : Nat → Nat)
    (clock : Nat → Rat) (step : Nat) :
    (hopToken token [s] rnd clock step).holder = s := by
  simp [hopToken, Nat.mod_one]

/-- C1: with `max_passes` set, the pass count exactly at it and the local
unit holding the token, `forward` returns `None`, reports completion with
the `time_elapsed` of the token exactly as received, and leaves the token
untouched — for every message, elapsed time, delay, peer list and stack. -/
theorem forward_terminal_as_received (fuel : Nat) (token : Token) (peers : List String)
    (selfName : String) (delay : Rat) (N : Int) (rnd : Nat → Nat) (clock : Nat → Rat)
    (step : Nat) (hN : token.times_passed = N) (hH : token.holder = selfName) :
    forward fuel token peers selfName delay (some N) rnd clock step =
      .ok ⟨none, token,
        ["Maximum passes reached. Time to completion is " ++ fmt2 token.time_elapsed ++ " seconds."],
        [], []⟩ := by
  rw [forward]
  simp [isTerminal, hN, hH, termStatus]

/-- Closed witness for C1, scenario 2 of the spec. -/
theorem forward_terminal_as_received_witness :
    forward 0 ⟨"hi", "A", 1, 5, 100⟩ ["A", "B"] "A" 0 (some 1) (fun _ => 0) (fun _ => 0) 0 =
      .ok ⟨none, ⟨"hi", "A", 1, 5, 100⟩,
        ["Maximum passes reached. Time to completion is " ++ fmt2 5 ++ " seconds."],
        [], []⟩ :=
  forward_terminal_as_received 0 ⟨"hi", "A", 1, 5, 100⟩ ["A", "B"] "A" 0 1
    (fun _ => 0) (fun _ => 0) 0 rfl rfl

/-- C2: a token held by another unit is discarded unmodified: `forward`
returns `None` as normal control flow (not an error), the token's fields are
all unchanged and no status is set. -/
theorem forward_not_holder_noop (fuel : Nat) (token : Token) (peers : List String)
    (selfName : String) (delay : Rat) (maxPasses : Option Int) (rnd : Nat → Nat)
    (clock : Nat → Rat) (step : Nat) (h : token.holder ≠ selfName) :
    forward fuel token peers selfName delay maxPasses rnd clock step =
      .ok ⟨none, token, [], [], []⟩ := by
  have hterm : isTerminal token selfName maxPasses = false := by
    cases maxPasses <;> simp [isTerminal, h]
  rw [forward]
  simp [hterm, h]

/-- Closed witness for C2, scenario 3 of the spec. -/
theorem forward_not_holder_noop_witness :
    forward 3 ⟨"msg", "B", 7, 2, 9⟩ ["A", "B"] "A" 1 (some 7) (fun _ => 4) (fun _ => 8) 2 =
      .ok ⟨none, ⟨"msg", "B", 7, 2, 9⟩, [], [], []⟩ :=
  forward_not_holder_noop 3 ⟨"msg", "B", 7, 2, 9⟩ ["A", "B"] "A" 1 (some 7)
    (fun _ => 4) (fun _ => 8) 2 (by decide)

/-- C5 counterexample: an empty peer list does not always fail.  A token held
by another unit is discarded before any selection is attempted, so `forward`
returns `None` as a normal no-op even though `peers` is empty. -/
theorem forward_empty_peers_not_always_error :
    forward 0 ⟨"hi", "B", 0, 0, 0⟩ [] "A" 0 none (fun _ => 0) (fun _ => 0) 0 =
      .ok ⟨none, ⟨"hi", "B", 0, 0, 0⟩, [], [], []⟩ := by
  rw [forward]
  simp [isTerminal]

/-- C5 (amended): only when the local unit holds the token and the
termination check does not fire does the hand-off reach the peer selection,
and there an empty peer list fails — the selection over zero candidates
raises (`random.randint(0, -1)`, line 51) and the error is surfaced to the
caller as the call's result, never swallowed or defaulted. -/
theorem forward_empty_peers_error (fuel : Nat) (token : Token) (selfName : String)
    (delay : Rat) (maxPasses : Option Int) (rnd : Nat → Nat) (clock : Nat → Rat)
    (step : Nat) (hH : token.holder = selfName)
    (hT : isTerminal token selfName maxPasses = false) :
    forward fuel token [] selfName delay maxPasses rnd clock step =
      .error .emptyPeerSet := by
  rw [forward]
  simp [hT, hH]

/-- Closed witness for C5's amended statement. -/
theorem forward_empty_peers_error_witness :
    forward 2 ⟨"hi", "A", 0, 0, 0⟩ [] "A" 0 (some 3) (fun _ => 0) (fun _ => 0) 0 =
      .error .emptyPeerSet :=
  forward_empty_peers_error 2 ⟨"hi", "A", 0, 0, 0⟩ "A" 0 (some 3)
    (fun _ => 0) (fun _ => 0) 0 rfl (by decide)

/-- C4 counterexample: the outcome of a contiguous run of self-hops depends
on the available call-stack depth, so self-hops do consume stack.  From
`times_passed = 0` with `max_passes = 2` and the single-peer set, the run
needs two recursive calls: with stack room for them it completes, with none
it dies in a stack overflow (Python `RecursionError`) — a bounded iterative
loop would behave identically at every depth. -/
theorem forward_self_hops_consume_stack :
    forward 0 ⟨"hi", "A", 0, 0, 0⟩ ["A"] "A" 0 (some 2) (fun _ => 0) (fun _ => 0) 0 =
      .error .stackOverflow ∧
    forward 2 ⟨"hi", "A", 0, 0, 0⟩ ["A"] "A" 0 (some 2) (fun _ => 0) (fun _ => 0) 0 =
      .ok ⟨none, ⟨"hi", "A", 2, 0, 0⟩,
        [hopStatus ⟨"hi", "A", 0, 0, 0⟩, "", hopStatus ⟨"hi", "A", 1, 0, 0⟩, "",
          termStatus ⟨"hi", "A", 2, 0, 0⟩],
        [1, 2], [0, 0]⟩ := by
  have h1 : hopToken ⟨"hi", "A", 0, 0, 0⟩ ["A"] (fun _ => 0) (fun _ => 0) 0 =
      (⟨"hi", "A", 1, 0, 0⟩ : Token) := by
    simp [hopToken]
  have h2 : hopToken ⟨"hi", "A", 1, 0, 0⟩ ["A"] (fun _ => 0) (fun _ => 0) 1 =
      (⟨"hi", "A", 2, 0, 0⟩ : Token) := by
    simp [hopToken]
  constructor
  · rw [forward_self_zero _ _ _ _ _ _ _ _ (by decide) rfl (by simp) (hopToken_single_holder _ _ _ _ _)]
  · have e2 : forward 0 ⟨"hi", "A", 2, 0, 0⟩ ["A"] "A" 0 (some 2) (fun _ => 0) (fun _ => 0) 2 =
        .ok ⟨none, ⟨"hi", "A", 2, 0, 0⟩, [termStatus ⟨"hi", "A", 2, 0, 0⟩], [], []⟩ :=
      forward_terminal_eq _ _ _ _ _ _ _ _ _ (by decide)
    have e1 : forward 1 ⟨"hi", "A", 1, 0, 0⟩ ["A"] "A" 0 (some 2) (fun _ => 0) (fun _ => 0) 1 =
        .ok ⟨none, ⟨"hi", "A", 2, 0, 0⟩, [hopStatus ⟨"hi", "A", 1, 0, 0⟩, "",
          termStatus ⟨"hi", "A", 2, 0, 0⟩], [2], [0]⟩ := by
      have := forward_self_succ 0 ⟨"hi", "A", 1, 0, 0⟩ ["A"] "A" 0 (some 2)
        (fun _ => 0) (fun _ => 0) 1 (by decide) rfl (by simp) (hopToken_single_holder _ _ _ _ _)
      rw [h2, e2] at this
      simpa using this
    have := forward_self_succ 1 ⟨"hi", "A", 0, 0, 0⟩ ["A"] "A" 0 (some 2)
      (fun _ => 0) (fun _ => 0) 0 (by decide) rfl (by simp) (hopToken_single_holder _ _ _ _ _)
    rw [h1, e1] at this
    simpa using this

/-- C4 (amended): when the selected next holder is the local unit itself,
`forward` calls itself recursively (charm.py line 63; its docstring calls it
a recursive function), so each self-hop consumes one stack frame and an
unbounded self-run — `max_passes` absent, the local unit the only peer —
exhausts every finite stack depth. -/
theorem forward_unbounded_self_loop_overflows (fuel : Nat) :
    ∀ (token : Token) (selfName : String) (delay : Rat) (rnd : Nat → Nat)
      (clock : Nat → Rat) (step : Nat), token.holder = selfName →
      forward fuel token [selfName] selfName delay none rnd clock step =
        .error .stackOverflow := by
  induction fuel with
  | zero =>
    intro token selfName delay rnd clock step hH
    exact forward_self_zero _ _ _ _ _ _ _ _ rfl hH (by simp)
      (hopToken_single_holder _ _ _ _ _)
  | succ fuel ih =>
    intro token selfName delay rnd clock step hH
    rw [forward_self_succ fuel token [selfName] selfName delay none rnd clock step rfl hH
      (by simp) (hopToken_single_holder _ _ _ _ _)]
    rw [ih _ selfName delay rnd clock (step + 1) (hopToken_single_holder _ _ _ _ _)]

/-- Closed witness for C4's amended statement. -/
theorem forward_unbounded_self_loop_overflows_witness :
    forward 5 ⟨"hi", "A", 0, 0, 0⟩ ["A"] "A" 0 none (fun _ => 0) (fun _ => 0) 0 =
      .error .stackOverflow :=
  forward_unbounded_self_loop_overflows 5 ⟨"hi", "A", 0, 0, 0⟩ "A" 0
    (fun _ => 0) (fun _ => 0) 0 rfl

/-- C3: from a pass count `k + 1` short of the limit, with the single-peer
topology `[selfName]` and the local unit holding, the engine terminates by
self-looping internally: the run performs `k + 1` hops whose pass counts are
exactly `times_passed + 1, ..., N`, each one greater than the last, and ends
returning `None` — never a token for external transmission. -/
theorem forward_self_loop_converges (k : Nat) :
    ∀ (token : Token) (selfName : String) (delay : Rat) (N : Int) (rnd : Nat → Nat)
      (clock : Nat → Rat) (step : Nat),
      token.holder = selfName → token.times_passed + k + 1 = N →
      ∃ r, forward (k + 1) token [selfName] selfName delay (some N) rnd clock step = .ok r ∧
        r.sent = none ∧
        r.passTrace = (List.range (k + 1)).map fun (i : Nat) => token.times_passed + 1 + (i : Int) := by
  induction k with
  | zero =>
    intro token selfName delay N rnd clock step hH hN
    have hne : token.times_passed ≠ N := by omega
    have hT : isTerminal token selfName (some N) = false := by
      simp [isTerminal, hne]
    have hs := hopToken_single_holder token selfName rnd clock step
    have hT1 : isTerminal (hopToken token [selfName] rnd clock step) selfName (some N) = true := by
      simp [isTerminal, hopToken, Nat.mod_one]
      omega
    have e0 := forward_terminal_eq 0 (hopToken token [selfName] rnd clock step) [selfName]
      selfName delay (some N) rnd clock (step + 1) hT1
    rw [forward_self_succ 0 token [selfName] selfName delay (some N) rnd clock step hT hH
      (by simp) hs, e0]
    refine ⟨_, rfl, rfl, ?_⟩
    simp [hopToken, List.range_succ]
  | succ k ih =>
    intro token selfName delay N rnd clock step hH hN
    have hne : token.times_passed ≠ N := by omega
    have hT : isTerminal token selfName (some N) = false := by
      simp [isTerminal, hne]
    have hs := hopToken_single_holder token selfName rnd clock step
    obtain ⟨r, hr, hsent, htrace⟩ := ih (hopToken token [selfName] rnd clock step) selfName
      delay N rnd clock (step + 1) hs (by simp [hopToken]; omega)
    rw [forward_self_succ (k + 1) token [selfName] selfName delay (some N) rnd clock step hT hH
      (by simp) hs, hr]
    refine ⟨_, rfl, hsent, ?_⟩
    rw [htrace]
    have hhop : (hopToken token [selfName] rnd clock step).times_passed =
        token.times_passed + 1 := by
      simp [hopToken]
    rw [hhop]
    conv_rhs => rw [List.range_succ_eq_map]
    simp only [List.map_cons, List.map_map, Nat.cast_zero, add_zero]
    refine List.cons_eq_cons.mpr ⟨rfl, ?_⟩
    apply List.map_congr_left
    intro i _
    simp only [Function.comp_apply]
    push_cast
    ring

/-- Closed witness for C3, scenario 4 of the spec. -/
theorem forward_self_loop_converges_witness :
    ∃ r, forward 3 ⟨"hi", "A", 0, 0, 0⟩ ["A"] "A" 0 (some 3) (fun _ => 0) (fun _ => 0) 0 =
        .ok r ∧ r.sent = none ∧
      r.passTrace = (List.range 3).map fun (i : Nat) =>
        (⟨"hi", "A", 0, 0, 0⟩ : Token).times_passed + 1 + (i : Int) :=
  forward_self_loop_converges 2 ⟨"hi", "A", 0, 0, 0⟩ "A" 0 3 (fun _ => 0) (fun _ => 0) 0
    rfl (by norm_num)

/-- The selected next holder is always a member of a non-empty peer list. -/
theorem hopToken_holder_mem (token : Token) (peers : List String) (rnd : Nat → Nat)
    (clock : Nat → Rat) (step : Nat) (hp : peers ≠ []) :
    (hopToken token peers rnd clock step).holder ∈ peers := by
  have hidx : rnd step % peers.length < peers.length :=
    Nat.mod_lt _ (List.length_pos.mpr hp)
  simp only [hopToken]
  rw [List.getD_eq_getElem peers "" hidx]
  exact List.getElem_mem hidx

/-- Case analysis on a successful `forward` call, one case per decision
branch of the engine: termination, stale delivery, external hand-off, or an
internal self-hop followed by a successful recursive run. -/
theorem forward_ok_elim (fuel : Nat) (token : Token) (peers : List String)
    (selfName : String) (delay : Rat) (maxPasses : Option Int) (rnd : Nat → Nat)
    (clock : Nat → Rat) (step : Nat) (r : ForwardResult)
    (h : forward fuel token peers selfName delay maxPasses rnd clock step = .ok r) :
    (isTerminal token selfName maxPasses = true ∧
      r = ⟨none, token, [termStatus token], [], []⟩) ∨
    (isTerminal token selfName maxPasses = false ∧ token.holder ≠ selfName ∧
      r = ⟨none, token, [], [], []⟩) ∨
    (isTerminal token selfName maxPasses = false ∧ token.holder = selfName ∧ peers ≠ [] ∧
      (hopToken token peers rnd clock step).holder ≠ selfName ∧
      r = ⟨some (hopToken token peers rnd clock step), hopToken token peers rnd clock step,
        [hopStatus token, ""], [(hopToken token peers rnd clock step).times_passed],
        [(hopToken token peers rnd clock step).time_elapsed]⟩) ∨
    (isTerminal token selfName maxPasses = false ∧ token.holder = selfName ∧ peers ≠ [] ∧
      (hopToken token peers rnd clock step).holder = selfName ∧
      ∃ fuel' r', fuel = fuel' + 1 ∧
        forward fuel' (hopToken token peers rnd clock step) peers selfName delay maxPasses
          rnd clock (step + 1) = .ok r' ∧
        r = ⟨r'.sent, r'.final, hopStatus token :: "" :: r'.statusTrace,
          (hopToken token peers rnd clock step).times_passed :: r'.passTrace,
          (hopToken token peers rnd clock step).time_elapsed :: r'.elapsedTrace⟩) := by
  by_cases hT : isTerminal token selfName maxPasses = true
  · rw [forward_terminal_eq fuel token peers selfName delay maxPasses rnd clock step hT] at h
    simp only [Except.ok.injEq] at h
    exact Or.inl ⟨hT, h.symm⟩
  · have hT' : isTerminal token selfName maxPasses = false := by simpa using hT
    by_cases hH : token.holder = selfName
    · by_cases hp : peers = []
      · subst hp
        rw [forward_empty_eq fuel token selfName delay maxPasses rnd clock step hT' hH] at h
        simp at h
      · by_cases hs : (hopToken token peers rnd clock step).holder = selfName
        · cases fuel with
          | zero =>
            rw [forward_self_zero token peers selfName delay maxPasses rnd clock step
              hT' hH hp hs] at h
            simp at h
          | succ f =>
            rw [forward_self_succ f token peers selfName delay maxPasses rnd clock step
              hT' hH hp hs] at h
            cases heq : forward f (hopToken token peers rnd clock step) peers selfName delay
              maxPasses rnd clock (step + 1) with
            | error e =>
              rw [heq] at h
              simp at h
            | ok r' =>
              rw [heq] at h
              simp only [Except.ok.injEq] at h
              exact Or.inr (Or.inr (Or.inr ⟨hT', hH, hp, hs, f, r', rfl, heq, h.symm⟩))
        · rw [forward_send_eq fuel token peers selfName delay maxPasses rnd clock step
            hT' hH hp hs] at h
          simp only [Except.ok.injEq] at h
          exact Or.inr (Or.inr (Or.inl ⟨hT', hH, hp, hs, h.symm⟩))
    · rw [forward_stale_eq fuel token peers selfName delay maxPasses rnd clock step hT' hH] at h
      simp only [Except.ok.injEq] at h
      exact Or.inr (Or.inl ⟨hT', hH, h.symm⟩)

/-- C8: whenever `forward` returns a token for transmission, its holder is a
member of the peer list that was passed in and differs from the local unit —
a token re-addressed to the local unit is consumed internally, never
returned. -/
theorem forward_sent_to_other_peer (peers : List String) (selfName : String) (delay : Rat)
    (maxPasses : Option Int) (rnd : Nat → Nat) (clock : Nat → Rat) :
    ∀ (fuel : Nat) (token : Token) (step : Nat) (r : ForwardResult) (t' : Token),
      forward fuel token peers selfName delay maxPasses rnd clock step = .ok r →
      r.sent = some t' → t'.holder ∈ peers ∧ t'.holder ≠ selfName := by
  intro fuel
  induction fuel with
  | zero =>
    intro token step r t' h hs
    rcases forward_ok_elim 0 token peers selfName delay maxPasses rnd clock step r h with
      ⟨_, rfl⟩ | ⟨_, _, rfl⟩ | ⟨_, _, hp, hne, rfl⟩ | ⟨_, _, _, _, fuel', r', hfe, _, _⟩
    · simp at hs
    · simp at hs
    · simp only [Option.some.injEq] at hs
      subst hs
      exact ⟨hopToken_holder_mem _ _ _ _ _ hp, hne⟩
    · exact absurd hfe (by omega)
  | succ f ih =>
    intro token step r t' h hs
    rcases forward_ok_elim (f + 1) token peers selfName delay maxPasses rnd clock step r h with
      ⟨_, rfl⟩ | ⟨_, _, rfl⟩ | ⟨_, _, hp, hne, rfl⟩ | ⟨_, _, _, _, fuel', r', hfe, hfwd, rfl⟩
    · simp at hs
    · simp at hs
    · simp only [Option.some.injEq] at hs
      subst hs
      exact ⟨hopToken_holder_mem _ _ _ _ _ hp, hne⟩
    · have hf : fuel' = f := by omega
      subst hf
      exact ih (hopToken token peers rnd clock step) (step + 1) r' t' hfwd hs

/-- Closed witness for C8. -/
theorem forward_sent_to_other_peer_witness :
    (⟨"hi", "B", 6, 0, 0⟩ : Token).holder ∈ ["A", "B"] ∧
      (⟨"hi", "B", 6, 0, 0⟩ : Token).holder ≠ "A" := by
  have hhop : hopToken ⟨"hi", "A", 5, 0, 0⟩ ["A", "B"] (fun _ => 1) (fun _ => 0) 0 =
      (⟨"hi", "B", 6, 0, 0⟩ : Token) := by
    simp [hopToken]
  have heval : forward 0 ⟨"hi", "A", 5, 0, 0⟩ ["A", "B"] "A" 0 none (fun _ => 1) (fun _ => 0) 0 =
      .ok ⟨some ⟨"hi", "B", 6, 0, 0⟩, ⟨"hi", "B", 6, 0, 0⟩,
        [hopStatus ⟨"hi", "A", 5, 0, 0⟩, ""], [6], [0]⟩ := by
    have := forward_send_eq 0 ⟨"hi", "A", 5, 0, 0⟩ ["A", "B"] "A" 0 none
      (fun _ => 1) (fun _ => 0) 0 rfl rfl (by simp) (by rw [hhop]; decide)
    rw [hhop] at this
    simpa using this
  exact forward_sent_to_other_peer ["A", "B"] "A" 0 none (fun _ => 1) (fun _ => 0) 0
    ⟨"hi", "A", 5, 0, 0⟩ 0 _ ⟨"hi", "B", 6, 0, 0⟩ heval rfl

/-- C7: the termination check uses strict equality, so a pass count already
strictly above the limit never reports completion again: every successful
call from such a state hands the token off — its result is a transmitted
token, and the first status it sets is the mid-hop status of the received
token, not the completion report. -/
theorem forward_overshoot_never_completes (peers : List String) (selfName : String)
    (delay : Rat) (N : Int) (rnd : Nat → Nat) (clock : Nat → Rat) :
    ∀ (fuel : Nat) (token : Token) (step : Nat) (r : ForwardResult),
      token.holder = selfName → N < token.times_passed →
      forward fuel token peers selfName delay (some N) rnd clock step = .ok r →
      (∃ t', r.sent = some t') ∧ r.statusTrace.head? = some (hopStatus token) := by
  intro fuel
  induction fuel with
  | zero =>
    intro token step r hH hlt h
    rcases forward_ok_elim 0 token peers selfName delay (some N) rnd clock step r h with
      ⟨hT, rfl⟩ | ⟨_, hne, _⟩ | ⟨_, _, hp, hne, rfl⟩ | ⟨_, _, _, _, fuel', r', hfe, _, _⟩
    · simp only [isTerminal, Bool.and_eq_true, beq_iff_eq] at hT
      omega
    · exact absurd hH hne
    · exact ⟨⟨_, rfl⟩, rfl⟩
    · exact absurd hfe (by omega)
  | succ f ih =>
    intro token step r hH hlt h
    rcases forward_ok_elim (f + 1) token peers selfName delay (some N) rnd clock step r h with
      ⟨hT, rfl⟩ | ⟨_, hne, _⟩ | ⟨_, _, hp, hne, rfl⟩ | ⟨_, _, _, hs, fuel', r', hfe, hfwd, rfl⟩
    · simp only [isTerminal, Bool.and_eq_true, beq_iff_eq] at hT
      omega
    · exact absurd hH hne
    · exact ⟨⟨_, rfl⟩, rfl⟩
    · have hf : fuel' = f := by omega
      subst hf
      have hlt' : N < (hopToken token peers rnd clock step).times_passed := by
        simp only [hopToken]
        omega
      obtain ⟨⟨t', hsent⟩, _⟩ := ih (hopToken token peers rnd clock step) (step + 1) r' hs hlt' hfwd
      exact ⟨⟨t', hsent⟩, rfl⟩

/-- Closed witness for C7: a count of 5 with a limit of 3 still hands off. -/
theorem forward_overshoot_never_completes_witness :
    (∃ t', (⟨some ⟨"go", "B", 6, 0, 0⟩, ⟨"go", "B", 6, 0, 0⟩,
        [hopStatus ⟨"go", "A", 5, 0, 0⟩, ""], [6], [0]⟩ : ForwardResult).sent = some t') ∧
      (⟨some ⟨"go", "B", 6, 0, 0⟩, ⟨"go", "B", 6, 0, 0⟩,
        [hopStatus ⟨"go", "A", 5, 0, 0⟩, ""], [6], [0]⟩ : ForwardResult).statusTrace.head? =
        some (hopStatus ⟨"go", "A", 5, 0, 0⟩) := by
  have hhop : hopToken ⟨"go", "A", 5, 0, 0⟩ ["A", "B"] (fun _ => 1) (fun _ => 0) 0 =
      (⟨"go", "B", 6, 0, 0⟩ : Token) := by
    simp [hopToken]
  have heval : forward 0 ⟨"go", "A", 5, 0, 0⟩ ["A", "B"] "A" 0 (some 3)
      (fun _ => 1) (fun _ => 0) 0 =
      .ok ⟨some ⟨"go", "B", 6, 0, 0⟩, ⟨"go", "B", 6, 0, 0⟩,
        [hopStatus ⟨"go", "A", 5, 0, 0⟩, ""], [6], [0]⟩ := by
    have := forward_send_eq 0 ⟨"go", "A", 5, 0, 0⟩ ["A", "B"] "A" 0 (some 3)
      (fun _ => 1) (fun _ => 0) 0 (by decide) rfl (by simp) (by rw [hhop]; decide)
    rw [hhop] at this
    simpa using this
  exact forward_overshoot_never_completes ["A", "B"] "A" 0 3 (fun _ => 1) (fun _ => 0) 0
    ⟨"go", "A", 5, 0, 0⟩ 0 _ rfl (by decide) heval

/-- Prepending the hop that produced count `a + 1` to a consecutive run of
counts starting at `a + 2` gives the consecutive run starting at `a + 1`. -/
theorem consecutive_cons (a : Int) (n : Nat) :
    (a + 1) :: ((List.range n).map fun (i : Nat) => a + 1 + 1 + (i : Int)) =
      (List.range (n + 1)).map fun (i : Nat) => a + 1 + (i : Int) := by
  conv_rhs => rw [List.range_succ_eq_map]
  simp only [List.map_cons, List.map_map, Nat.cast_zero, add_zero]
  refine List.cons_eq_cons.mpr ⟨rfl, ?_⟩
  apply List.map_congr_left
  intro i _
  simp only [Function.comp_apply]
  push_cast
  ring

/-- C6: on any successful run the hop counters recorded after the completed
hops are exactly `times_passed + 1, times_passed + 2, ...` — each completed
hop, self-hops included, adds exactly 1 — and, provided the injected clock
readings never run backwards (each `time.time()` at least the previous one
and not before the token's last stamp), the elapsed-time values recorded hop
by hop never decrease either, so both counters are monotone across the run. -/
theorem forward_monotone_counters (peers : List String) (selfName : String) (delay : Rat)
    (maxPasses : Option Int) (rnd : Nat → Nat) (clock : Nat → Rat)
    (hclk : ∀ i, clock i ≤ clock (i + 1)) :
    ∀ (fuel : Nat) (token : Token) (step : Nat) (r : ForwardResult),
      forward fuel token peers selfName delay maxPasses rnd clock step = .ok r →
      token.timestamp ≤ clock step →
      r.passTrace = (List.range r.passTrace.length).map
          (fun (i : Nat) => token.times_passed + 1 + (i : Int)) ∧
      List.Chain' (· ≤ ·) (token.time_elapsed :: r.elapsedTrace) ∧
      token.time_elapsed ≤ r.final.time_elapsed := by
  intro fuel
  induction fuel with
  | zero =>
    intro token step r h hts
    rcases forward_ok_elim 0 token peers selfName delay maxPasses rnd clock step r h with
      ⟨_, rfl⟩ | ⟨_, _, rfl⟩ | ⟨_, _, hp, hne, rfl⟩ | ⟨_, _, _, _, fuel', r', hfe, _, _⟩
    · exact ⟨by simp, by simp, le_refl _⟩
    · exact ⟨by simp, by simp, le_refl _⟩
    · refine ⟨?_, ?_, ?_⟩
      · simp [hopToken, List.range_succ]
      · have hle : token.time_elapsed ≤ (hopToken token peers rnd clock step).time_elapsed := by
          simp only [hopToken]
          linarith
        simp [List.chain'_cons, hle]
      · simp only [hopToken]
        linarith
    · exact absurd hfe (by omega)
  | succ f ih =>
    intro token step r h hts
    rcases forward_ok_elim (f + 1) token peers selfName delay maxPasses rnd clock step r h with
      ⟨_, rfl⟩ | ⟨_, _, rfl⟩ | ⟨_, _, hp, hne, rfl⟩ | ⟨_, _, _, hs, fuel', r', hfe, hfwd, rfl⟩
    · exact ⟨by simp, by simp, le_refl _⟩
    · exact ⟨by simp, by simp, le_refl _⟩
    · refine ⟨?_, ?_, ?_⟩
      · simp [hopToken, List.range_succ]
      · have hle : token.time_elapsed ≤ (hopToken token peers rnd clock step).time_elapsed := by
          simp only [hopToken]
          linarith
        simp [List.chain'_cons, hle]
      · simp only [hopToken]
        linarith
    · have hf : fuel' = f := by omega
      subst hf
      have hts' : (hopToken token peers rnd clock step).timestamp ≤ clock (step + 1) := by
        simp only [hopToken]
        exact hclk step
      obtain ⟨hpass, hchain, hfin⟩ := ih (hopToken token peers rnd clock step) (step + 1) r' hfwd hts'
      refine ⟨?_, ?_, ?_⟩
      · dsimp only
        simp only [List.length_cons]
        conv_lhs => rw [hpass]
        simp only [hopToken]
        exact consecutive_cons token.times_passed r'.passTrace.length
      · dsimp only
        refine List.chain'_cons.mpr ⟨?_, ?_⟩
        · simp only [hopToken]
          linarith
        · exact hchain
      · dsimp only
        refine le_trans ?_ hfin
        simp only [hopToken]
        linarith

/-- Closed witness for C6 at a concrete single external hop. -/
theorem forward_monotone_counters_witness :
    ([6] : List Int) = (List.range 1).map (fun (i : Nat) => (5 : Int) + 1 + (i : Int)) ∧
      List.Chain' (· ≤ ·) [(0 : Rat), 0] ∧ (0 : Rat) ≤ 0 := by
  have hhop : hopToken ⟨"ho", "A", 5, 0, 0⟩ ["A", "B"] (fun _ => 1) (fun _ => 0) 0 =
      (⟨"ho", "B", 6, 0, 0⟩ : Token) := by
    simp [hopToken]
  have heval : forward 0 ⟨"ho", "A", 5, 0, 0⟩ ["A", "B"] "A" 0 none (fun _ => 1) (fun _ => 0) 0 =
      .ok ⟨some ⟨"ho", "B", 6, 0, 0⟩, ⟨"ho", "B", 6, 0, 0⟩,
        [hopStatus ⟨"ho", "A", 5, 0, 0⟩, ""], [6], [0]⟩ := by
    have := forward_send_eq 0 ⟨"ho", "A", 5, 0, 0⟩ ["A", "B"] "A" 0 none
      (fun _ => 1) (fun _ => 0) 0 rfl rfl (by simp) (by rw [hhop]; decide)
    rw [hhop] at this
    simpa using this
  exact forward_monotone_counters ["A", "B"] "A" 0 none (fun _ => 1) (fun _ => 0)
    (fun i => le_refl 0) 0 ⟨"ho", "A", 5, 0, 0⟩ 0 _ heval (le_refl 0)

/-- C9: the exact status formats.  The termination branch sets exactly
`Maximum passes reached. Time to completion is <time> seconds.` with the
elapsed time at two decimals; the hand-off branch first sets exactly
`M: <message>, H: <holder>, P: <times_passed>, T: <time_elapsed at two
decimals>` from the token as received, and once the hop is committed (here:
the token leaves the unit) the status is reset to the empty neutral one. -/
theorem forward_status_formats (fuel : Nat) (token : Token) (peers : List String)
    (selfName : String) (delay : Rat) (maxPasses : Option Int) (rnd : Nat → Nat)
    (clock : Nat → Rat) (step : Nat) :
    (isTerminal token selfName maxPasses = true →
      forward fuel token peers selfName delay maxPasses rnd clock step =
        .ok ⟨none, token,
          ["Maximum passes reached. Time to completion is " ++ fmt2 token.time_elapsed ++
            " seconds."], [], []⟩) ∧
    (isTerminal token selfName maxPasses = false → token.holder = selfName → peers ≠ [] →
      (hopToken token peers rnd clock step).holder ≠ selfName →
      forward fuel token peers selfName delay maxPasses rnd clock step =
        .ok ⟨some (hopToken token peers rnd clock step), hopToken token peers rnd clock step,
          ["M: " ++ token.message ++ ", H: " ++ token.holder ++ ", P: " ++
            renderInt token.times_passed ++ ", T: " ++ fmt2 token.time_elapsed, ""],
          [(hopToken token peers rnd clock step).times_passed],
          [(hopToken token peers rnd clock step).time_elapsed]⟩) := by
  constructor
  · intro hT
    rw [forward_terminal_eq fuel token peers selfName delay maxPasses rnd clock step hT]
    rfl
  · intro hT hH hp hs
    rw [forward_send_eq fuel token peers selfName delay maxPasses rnd clock step hT hH hp hs]
    rfl

/-- Closed witness for C9 at one terminal and one hand-off call. -/
theorem forward_status_formats_witness :
    forward 0 ⟨"hi", "A", 2, 5, 9⟩ ["A", "B"] "A" 0 (some 2) (fun _ => 1) (fun _ => 0) 0 =
      .ok ⟨none, ⟨"hi", "A", 2, 5, 9⟩,
        ["Maximum passes reached. Time to completion is " ++ fmt2 5 ++ " seconds."],
        [], []⟩ ∧
    forward 0 ⟨"hi", "A", 0, 0, 0⟩ ["A", "B"] "A" 0 (some 2) (fun _ => 1) (fun _ => 0) 0 =
      .ok ⟨some (hopToken ⟨"hi", "A", 0, 0, 0⟩ ["A", "B"] (fun _ => 1) (fun _ => 0) 0),
        hopToken ⟨"hi", "A", 0, 0, 0⟩ ["A", "B"] (fun _ => 1) (fun _ => 0) 0,
        ["M: " ++ "hi" ++ ", H: " ++ "A" ++ ", P: " ++ renderInt 0 ++ ", T: " ++ fmt2 0, ""],
        [(hopToken ⟨"hi", "A", 0, 0, 0⟩ ["A", "B"] (fun _ => 1) (fun _ => 0) 0).times_passed],
        [(hopToken ⟨"hi", "A", 0, 0, 0⟩ ["A", "B"] (fun _ => 1) (fun _ => 0) 0).time_elapsed]⟩ :=
  ⟨(forward_status_formats 0 ⟨"hi", "A", 2, 5, 9⟩ ["A", "B"] "A" 0 (some 2)
      (fun _ => 1) (fun _ => 0) 0).1 (by decide),
   (forward_status_formats 0 ⟨"hi", "A", 0, 0, 0⟩ ["A", "B"] "A" 0 (some 2)
      (fun _ => 1) (fun _ => 0) 0).2 (by decide) rfl (by simp) (by decide)⟩

/-- A fixed chunk of wire text consumes exactly itself. -/
theorem expectChunk_append (p s : List Char) : expectChunk p (p ++ s) = some s := by
  induction p with
  | nil => rfl
  | cons c cs ih => simp [expectChunk, ih]

/-- Code of a decimal digit character. -/
theorem digitChar_toNat (d : Nat) (h : d < 10) : (digitChar d).toNat = 48 + d := by
  interval_cases d <;> decide

/-- Decimal digit characters are digits. -/
theorem isDigitCh_digitChar (d : Nat) (h : d < 10) : isDigitCh (digitChar d) = true := by
  interval_cases d <;> decide

/-- A digit character is not a minus sign. -/
theorem ne_neg_of_isDigitCh (c : Char) (h : isDigitCh c = true) : c ≠ '-' := by
  intro hc
  subst hc
  simp [isDigitCh] at h

/-- A non-digit head stops the digit run. -/
theorem head_not_digit_cons (c : Char) (hc : isDigitCh c = false) (l : List Char) :
    ∀ x, (c :: l).head? = some x → isDigitCh x = false := by
  intro x hx
  simp only [List.head?_cons, Option.some.injEq] at hx
  subst hx
  exact hc

/-- The digit run consumes exactly a leading all-digit block. -/
theorem takeDigits_spec (ds : List Char) (hds : ∀ c ∈ ds, isDigitCh c = true) :
    ∀ (acc : Nat) (rest : List Char), (∀ c, rest.head? = some c → isDigitCh c = false) →
      takeDigits (ds ++ rest) acc =
        (List.foldl (fun a c => a * 10 + (c.toNat - 48)) acc ds, ds.length, rest) := by
  induction ds with
  | nil =>
    intro acc rest hrest
    cases rest with
    | nil => rfl
    | cons c cs =>
      have hc := hrest c rfl
      simp [takeDigits, hc]
  | cons c cs ih =>
    intro acc rest hrest
    have hc : isDigitCh c = true := hds c (by simp)
    simp only [List.cons_append, takeDigits, hc, if_true, List.append_eq]
    rw [ih (fun x hx => hds x (by simp [hx])) (acc * 10 + (c.toNat - 48)) rest hrest]
    simp

/-- A non-empty all-digit block parses to its value, length and the rest. -/
theorem parseDigits_run (ds : List Char) (hne : ds ≠ []) (hds : ∀ c ∈ ds, isDigitCh c = true)
    (rest : List Char) (hrest : ∀ c, rest.head? = some c → isDigitCh c = false) :
    parseDigits (ds ++ rest) =
      some (List.foldl (fun a c => a * 10 + (c.toNat - 48)) 0 ds, ds.length, rest) := by
  cases ds with
  | nil => exact absurd rfl hne
  | cons c cs =>
    have hc := hds c (by simp)
    simp only [List.cons_append, parseDigits, hc, if_true, List.append_eq]
    rw [takeDigits_spec cs (fun x hx => hds x (by simp [hx])) (c.toNat - 48) rest hrest]
    simp

/-- The decimal rendering is made of digit characters. -/
theorem natChars_digits (n : Nat) : ∀ c ∈ natChars n, isDigitCh c = true := by
  induction n using Nat.strong_induction_on with
  | _ n ih =>
    rw [natChars]
    split_ifs with h
    · intro c hc
      simp only [List.mem_singleton] at hc
      subst hc
      exact isDigitCh_digitChar n h
    · intro c hc
      rw [List.mem_append] at hc
      rcases hc with hc | hc
      · exact ih (n / 10) (Nat.div_lt_self (by omega) (by omega)) c hc
      · simp only [List.mem_singleton] at hc
        subst hc
        exact isDigitCh_digitChar _ (Nat.mod_lt _ (by omega))

/-- The decimal rendering is never empty. -/
theorem natChars_ne_nil (n : Nat) : natChars n ≠ [] := by
  rw [natChars]
  split_ifs <;> simp

/-- Folding the digit accumulator over the decimal rendering recovers the
number. -/
theorem natChars_foldl (n : Nat) : ∀ acc : Nat,
    List.foldl (fun a c => a * 10 + (c.toNat - 48)) acc (natChars n) =
      acc * 10 ^ (natChars n).length + n := by
  induction n using Nat.strong_induction_on with
  | _ n ih =>
    intro acc
    rw [natChars]
    split_ifs with h
    · simp [digitChar_toNat n h]
    · rw [List.foldl_append, ih (n / 10) (Nat.div_lt_self (by omega) (by omega)) acc]
      simp only [List.foldl_cons, List.foldl_nil, List.length_append, List.length_cons,
        List.length_nil, digitChar_toNat (n % 10) (Nat.mod_lt _ (by omega))]
      rw [pow_succ, ← mul_assoc]
      have h48 : 48 + n % 10 - 48 = n % 10 := by omega
      rw [h48]
      generalize acc * 10 ^ (natChars (n / 10)).length = A
      omega

/-- The padded rendering is made of digit characters. -/
theorem padChars_digits (k : Nat) : ∀ (m : Nat), ∀ c ∈ padChars k m, isDigitCh c = true := by
  induction k with
  | zero => simp [padChars]
  | succ k ih =>
    intro m c hc
    simp only [padChars, List.mem_append, List.mem_singleton] at hc
    rcases hc with hc | hc
    · exact ih (m / 10) c hc
    · subst hc
      exact isDigitCh_digitChar _ (Nat.mod_lt _ (by omega))

/-- The padded rendering has exactly the requested width. -/
theorem padChars_length (k : Nat) : ∀ m : Nat, (padChars k m).length = k := by
  induction k with
  | zero => simp [padChars]
  | succ k ih =>
    intro m
    simp [padChars, ih]

/-- Folding the digit accumulator over the padded rendering recovers the
number modulo the width. -/
theorem padChars_foldl (k : Nat) : ∀ m acc : Nat,
    List.foldl (fun a c => a * 10 + (c.toNat - 48)) acc (padChars k m) =
      acc * 10 ^ k + m % 10 ^ k := by
  induction k with
  | zero => simp [padChars, Nat.mod_one]
  | succ k ih =>
    intro m acc
    simp only [padChars, List.foldl_append, List.foldl_cons, List.foldl_nil]
    rw [ih (m / 10) acc]
    have h1 : m % 10 ^ (k + 1) = m % 10 + 10 * (m / 10 % 10 ^ k) := by
      rw [pow_succ']
      exact Nat.mod_mul
    rw [h1, digitChar_toNat (m % 10) (Nat.mod_lt _ (by omega)), pow_succ, ← mul_assoc]
    generalize acc * 10 ^ k = A
    generalize m / 10 % 10 ^ k = B
    omega

/-- The decimal rendering of `n` parses back to `n`. -/
theorem parseDigits_natChars (n : Nat) (rest : List Char)
    (hrest : ∀ c, rest.head? = some c → isDigitCh c = false) :
    parseDigits (natChars n ++ rest) = some (n, (natChars n).length, rest) := by
  rw [parseDigits_run (natChars n) (natChars_ne_nil n) (natChars_digits n) rest hrest,
    natChars_foldl n 0]
  simp

/-- The padded rendering of `m < 10 ^ k` parses back to `m` with width `k`. -/
theorem parseDigits_padChars (k m : Nat) (hk : 0 < k) (rest : List Char)
    (hrest : ∀ c, rest.head? = some c → isDigitCh c = false) :
    parseDigits (padChars k m ++ rest) = some (m % 10 ^ k, k, rest) := by
  have hne : padChars k m ≠ [] := by
    cases k with
    | zero => omega
    | succ k => simp [padChars]
  rw [parseDigits_run (padChars k m) hne (padChars_digits k m) rest hrest,
    padChars_foldl k m 0, padChars_length k m]
  simp

/-- The decoder of a JSON integer inverts the integer rendering. -/
theorem parseIntJ_renderInt (i : Int) (rest : List Char)
    (hrest : ∀ c, rest.head? = some c → isDigitCh c = false) :
    parseIntJ ((renderInt i).data ++ rest) = some (i, rest) := by
  by_cases hneg : i < 0
  · rw [renderInt, if_pos hneg]
    have hdata : (("-" : String) ++ renderNat i.natAbs).data ++ rest =
        '-' :: (natChars i.natAbs ++ rest) := by
      simp [String.data_append, renderNat]
    rw [hdata]
    simp only [parseIntJ, if_pos]
    rw [parseDigits_natChars i.natAbs rest hrest]
    simp only [Option.some.injEq, Prod.mk.injEq]
    exact ⟨by omega, trivial⟩
  · rw [renderInt, if_neg hneg]
    obtain ⟨c, cs, hcs⟩ := List.exists_cons_of_ne_nil (natChars_ne_nil i.natAbs)
    have hdata : (renderNat i.natAbs).data ++ rest = c :: (cs ++ rest) := by
      simp [renderNat, hcs]
    rw [hdata]
    simp only [parseIntJ]
    rw [if_neg (ne_neg_of_isDigitCh c (natChars_digits i.natAbs c (by rw [hcs]; simp)))]
    have hback : c :: (cs ++ rest) = natChars i.natAbs ++ rest := by
      rw [hcs]
      simp
    rw [hback, parseDigits_natChars i.natAbs rest hrest]
    simp only [Option.some.injEq, Prod.mk.injEq]
    exact ⟨by omega, trivial⟩

/-- The decoder of a JSON number inverts the decimal rendering of any
rational a Python float can hold (one whose scaled value is integral). -/
theorem parseNum_renderRat (q : Rat) (hq : (q * (10 : Rat) ^ q.den).den = 1)
    (rest : List Char) (hrest : ∀ c, rest.head? = some c → isDigitCh c = false) :
    parseNum ((renderRat q).data ++ rest) = some (q, rest) := by
  rw [renderRat]
  set k := q.den with hk
  set m := (q * (10 : Rat) ^ k).num with hmdef
  set a := m.natAbs with hadef
  have hkpos : 0 < k := q.den_pos
  have hmq : (m : Rat) = q * (10 : Rat) ^ k := by
    rw [hmdef]
    conv_rhs => rw [← Rat.num_div_den (q * (10 : Rat) ^ k)]
    rw [hq]
    simp
  have hpow : ((10 : Rat) ^ k) ≠ 0 := by positivity
  have hq2 : (m : Rat) / (10 : Rat) ^ k = q := by
    rw [hmq]
    field_simp
  have hvalue : ((a / 10 ^ k : Nat) : Rat) + ((a % 10 ^ k : Nat) : Rat) / (10 : Rat) ^ k =
      (a : Rat) / (10 : Rat) ^ k := by
    have hda : 10 ^ k * (a / 10 ^ k) + a % 10 ^ k = a := Nat.div_add_mod a (10 ^ k)
    have hcast := congrArg (fun x : Nat => (x : Rat)) hda
    push_cast at hcast
    field_simp
    linarith [hcast]
  have habs : parseNumAbs (natChars (a / 10 ^ k) ++ ('.' :: (padChars k (a % 10 ^ k) ++ rest))) =
      some ((a : Rat) / (10 : Rat) ^ k, rest) := by
    simp only [parseNumAbs]
    rw [parseDigits_natChars (a / 10 ^ k) ('.' :: (padChars k (a % 10 ^ k) ++ rest))
      (head_not_digit_cons '.' (by decide) _)]
    simp only []
    rw [parseDigits_padChars k (a % 10 ^ k) hkpos rest hrest]
    simp only [Option.some.injEq, Prod.mk.injEq]
    rw [Nat.mod_mod_of_dvd _ (dvd_refl (10 ^ k))]
    exact ⟨hvalue, trivial⟩
  by_cases hm : m < 0
  · rw [if_pos hm]
    have hdata : (("-" : String) ++ renderNat (a / 10 ^ k) ++ "." ++
          String.mk (padChars k (a % 10 ^ k))).data ++ rest =
        '-' :: (natChars (a / 10 ^ k) ++ ('.' :: (padChars k (a % 10 ^ k) ++ rest))) := by
      simp [String.data_append, renderNat]
    rw [hdata]
    simp only [parseNum, if_pos]
    rw [habs]
    simp only [Option.some.injEq, Prod.mk.injEq]
    refine ⟨?_, trivial⟩
    have hcast : (a : Rat) = -(m : Rat) := by
      have h1 : (a : Int) = -m := Int.ofNat_natAbs_of_nonpos (le_of_lt hm)
      exact_mod_cast h1
    rw [hcast, neg_div, neg_neg, hq2]
  · rw [if_neg hm]
    obtain ⟨c, cs, hcs⟩ := List.exists_cons_of_ne_nil (natChars_ne_nil (a / 10 ^ k))
    have hdata : (("" : String) ++ renderNat (a / 10 ^ k) ++ "." ++
          String.mk (padChars k (a % 10 ^ k))).data ++ rest =
        c :: (cs ++ ('.' :: (padChars k (a % 10 ^ k) ++ rest))) := by
      simp [String.data_append, renderNat, hcs]
    rw [hdata]
    simp only [parseNum]
    rw [if_neg (ne_neg_of_isDigitCh c (natChars_digits _ c (by rw [hcs]; simp)))]
    have hback : c :: (cs ++ ('.' :: (padChars k (a % 10 ^ k) ++ rest))) =
        natChars (a / 10 ^ k) ++ ('.' :: (padChars k (a % 10 ^ k) ++ rest)) := by
      rw [hcs]
      simp
    rw [hback, habs]
    simp only [Option.some.injEq, Prod.mk.injEq]
    refine ⟨?_, trivial⟩
    have hcast : (a : Rat) = (m : Rat) := by
      have h1 : (a : Int) = m := Int.natAbs_of_nonneg (by omega)
      exact_mod_cast h1
    rw [hcast, hq2]

/-- A hexadecimal digit decodes to its value. -/
theorem hexVal_hexChar (d : Nat) (h : d < 16) : hexVal (hexChar d) = some d := by
  interval_cases d <;> decide

/-- The four hex digits of a code unit decode to the code unit. -/
theorem hex4Val_hex4 (n : Nat) (h : n < 65536) :
    hex4Val (hexChar (n / 4096 % 16)) (hexChar (n / 256 % 16)) (hexChar (n / 16 % 16))
      (hexChar (n % 16)) = some n := by
  simp only [hex4Val]
  rw [hexVal_hexChar _ (by omega), hexVal_hexChar _ (by omega),
    hexVal_hexChar _ (by omega), hexVal_hexChar _ (by omega)]
  simp only [Option.some.injEq]
  omega

/-- The scalar values a `Char` may hold: below the surrogate range, or
between it and the top of the Unicode space. -/
theorem char_toNat_valid (c : Char) :
    c.toNat < 55296 ∨ (57343 < c.toNat ∧ c.toNat < 1114112) :=
  c.valid


/-- Escaping a character never produces an empty sequence. -/
theorem escChar_length_pos (c : Char) : 1 ≤ (escChar c).length := by
  rw [escChar]
  split_ifs <;> simp

/-- Escaping never shortens a string. -/
theorem escapeChars_length (s : List Char) : s.length ≤ (escapeChars s).length := by
  induction s with
  | nil => simp [escapeChars]
  | cons c cs ih =>
    simp only [escapeChars, List.length_append, List.length_cons]
    have := escChar_length_pos c
    omega

/-- Step lemma: a quote closes the string body. -/
theorem pAux_quote (f : Nat) (rest : List Char) :
    parseStrBodyAux (f + 1) ('"' :: rest) = some ([], rest) := by
  simp [parseStrBodyAux]

/-- Step lemma: a literal character is consumed as itself. -/
theorem pAux_lit (f : Nat) (c : Char) (rest : List Char) (h1 : c ≠ '"') (h2 : c ≠ '\\') :
    parseStrBodyAux (f + 1) (c :: rest) = consParse c (parseStrBodyAux f rest) := by
  simp [parseStrBodyAux, h1, h2]

/-- Step lemma: a backslash consumes the escape its decoder recognises. -/
theorem pAux_esc (f : Nat) (rest r : List Char) (d : Char)
    (h : escDecode rest = some (d, r)) :
    parseStrBodyAux (f + 1) ('\\' :: rest) = consParse d (parseStrBodyAux f r) := by
  simp [parseStrBodyAux, h]

/-- The escape decoder on each two-character escape. -/
theorem escDecode_quote (r : List Char) : escDecode ('"' :: r) = some ('"', r) := rfl

/-- The escape decoder on an escaped backslash. -/
theorem escDecode_back (r : List Char) : escDecode ('\\' :: r) = some ('\\', r) := rfl

/-- The escape decoder on an escaped backspace. -/
theorem escDecode_b (r : List Char) : escDecode ('b' :: r) = some (Char.ofNat 8, r) := rfl

/-- The escape decoder on an escaped tab. -/
theorem escDecode_t (r : List Char) : escDecode ('t' :: r) = some ('\t', r) := rfl

/-- The escape decoder on an escaped newline. -/
theorem escDecode_n (r : List Char) : escDecode ('n' :: r) = some ('\n', r) := rfl

/-- The escape decoder on an escaped form feed. -/
theorem escDecode_f (r : List Char) : escDecode ('f' :: r) = some (Char.ofNat 12, r) := rfl

/-- The escape decoder on an escaped carriage return. -/
theorem escDecode_r (r : List Char) : escDecode ('r' :: r) = some ('\r', r) := rfl

/-- The escape decoder on a non-surrogate `\uXXXX` code unit. -/
theorem escDecode_u (a b c2 d : Char) (r2 : List Char) (n : Nat)
    (hv : hex4Val a b c2 d = some n) (hns : ¬(55296 ≤ n ∧ n ≤ 56319)) :
    escDecode ('u' :: a :: b :: c2 :: d :: r2) = some (Char.ofNat n, r2) := by
  simp [escDecode, hv, hns]

/-- The escape decoder on a surrogate pair of `\uXXXX` code units. -/
theorem escDecode_u_pair (a b c2 d a2 b2 c3 d2 : Char) (r3 : List Char) (n m : Nat)
    (hv1 : hex4Val a b c2 d = some n) (hs1 : 55296 ≤ n ∧ n ≤ 56319)
    (hv2 : hex4Val a2 b2 c3 d2 = some m) (hs2 : 56320 ≤ m ∧ m ≤ 57343) :
    escDecode ('u' :: a :: b :: c2 :: d :: '\\' :: 'u' :: a2 :: b2 :: c3 :: d2 :: r3) =
      some (Char.ofNat (65536 + (n - 55296) * 1024 + (m - 56320)), r3) := by
  simp [escDecode, hv1, hs1, hv2, hs2]

/-- With enough fuel, the string-body decoder inverts the escaper. -/
theorem parseStrBodyAux_escape (s : List Char) : ∀ (fuel : Nat) (rest : List Char),
    s.length + 1 ≤ fuel →
    parseStrBodyAux fuel (escapeChars s ++ '"' :: rest) = some (s, rest) := by
  induction s with
  | nil =>
    intro fuel rest hfuel
    cases fuel with
    | zero => omega
    | succ f =>
      simp only [escapeChars, List.nil_append]
      exact pAux_quote f rest
  | cons c cs ih =>
    intro fuel rest hfuel
    cases fuel with
    | zero => simp at hfuel
    | succ f =>
      have hf : cs.length + 1 ≤ f := by
        simp only [List.length_cons] at hfuel
        omega
      simp only [escapeChars]
      rw [List.append_assoc, escChar]
      split_ifs with h1 h2 h3 h4 h5 h6 h7 h8 h9
      · subst h1
        simp only [List.cons_append, List.nil_append]
        rw [pAux_esc f _ _ _ (escDecode_quote _), ih f rest hf]
        rfl
      · subst h2
        simp only [List.cons_append, List.nil_append]
        rw [pAux_esc f _ _ _ (escDecode_back _), ih f rest hf]
        rfl
      · have hc : c = Char.ofNat 8 := by rw [← h3, Char.ofNat_toNat]
        subst hc
        simp only [List.cons_append, List.nil_append]
        rw [pAux_esc f _ _ _ (escDecode_b _), ih f rest hf]
        rfl
      · have hc : c = '\t' := by rw [show '\t' = Char.ofNat 9 from rfl, ← h4, Char.ofNat_toNat]
        subst hc
        simp only [List.cons_append, List.nil_append]
        rw [pAux_esc f _ _ _ (escDecode_t _), ih f rest hf]
        rfl
      · have hc : c = '\n' := by rw [show '\n' = Char.ofNat 10 from rfl, ← h5, Char.ofNat_toNat]
        subst hc
        simp only [List.cons_append, List.nil_append]
        rw [pAux_esc f _ _ _ (escDecode_n _), ih f rest hf]
        rfl
      · have hc : c = Char.ofNat 12 := by rw [← h6, Char.ofNat_toNat]
        subst hc
        simp only [List.cons_append, List.nil_append]
        rw [pAux_esc f _ _ _ (escDecode_f _), ih f rest hf]
        rfl
      · have hc : c = '\r' := by rw [show '\r' = Char.ofNat 13 from rfl, ← h7, Char.ofNat_toNat]
        subst hc
        simp only [List.cons_append, List.nil_append]
        rw [pAux_esc f _ _ _ (escDecode_r _), ih f rest hf]
        rfl
      · simp only [List.cons_append, List.nil_append]
        rw [pAux_lit f c _ h1 h2, ih f rest hf]
        rfl
      · have hnosur : ¬(55296 ≤ c.toNat ∧ c.toNat ≤ 56319) := by
          rcases char_toNat_valid c with hv | hv <;> omega
        simp only [hex4, List.cons_append, List.nil_append, List.append_assoc]
        rw [pAux_esc f _ _ _ (escDecode_u _ _ _ _ _ c.toNat (hex4Val_hex4 c.toNat h9) hnosur),
          Char.ofNat_toNat, ih f rest hf]
        rfl
      · have hv : 57343 < c.toNat ∧ c.toNat < 1114112 := by
          rcases char_toNat_valid c with hv | hv
          · omega
          · exact hv
        simp only [hex4, List.cons_append, List.nil_append, List.append_assoc]
        rw [pAux_esc f _ _ _ (escDecode_u_pair _ _ _ _ _ _ _ _ _
            (55296 + (c.toNat - 65536) / 1024) (56320 + (c.toNat - 65536) % 1024)
            (hex4Val_hex4 _ (by omega)) (by constructor <;> omega)
            (hex4Val_hex4 _ (by omega)) (by constructor <;> omega))]
        rw [show 65536 + (55296 + (c.toNat - 65536) / 1024 - 55296) * 1024 +
            (56320 + (c.toNat - 65536) % 1024 - 56320) = c.toNat from by omega,
          Char.ofNat_toNat, ih f rest hf]
        rfl

/-- The string-body decoder inverts the escaper. -/
theorem parseStrBody_escape (s rest : List Char) :
    parseStrBody (escapeChars s ++ '"' :: rest) = some (s, rest) := by
  rw [parseStrBody]
  apply parseStrBodyAux_escape
  have h1 := escapeChars_length s
  simp only [List.length_append, List.length_cons]
  omega

/-- A chunk consumes exactly itself with nothing after. -/
theorem expectChunk_self (p : List Char) : expectChunk p p = some [] := by
  simpa using expectChunk_append p []

/-- The wire text after `times_passed` starts with a comma, not a digit. -/
theorem chunkElapsed_not_digit (X : List Char) :
    ∀ x, (chunkElapsed ++ X).head? = some x → isDigitCh x = false := by
  rw [show chunkElapsed = ',' :: (" \"time_elapsed\": " : String).data from rfl,
    List.cons_append]
  exact head_not_digit_cons ',' (by decide) _

/-- The wire text after `time_elapsed` starts with a comma, not a digit. -/
theorem chunkStamp_not_digit (X : List Char) :
    ∀ x, (chunkStamp ++ X).head? = some x → isDigitCh x = false := by
  rw [show chunkStamp = ',' :: (" \"timestamp\": " : String).data from rfl,
    List.cons_append]
  exact head_not_digit_cons ',' (by decide) _

/-- The closing brace is not a digit. -/
theorem chunkEnd_not_digit : ∀ x, chunkEnd.head? = some x → isDigitCh x = false := by
  rw [show chunkEnd = ['\x7d'] from rfl]
  exact head_not_digit_cons '\x7d' (by decide) _

/-- C10: decoding inverts encoding — `loads (dumps token)` gives back an
identical token — for every token whose two time fields are values a float
can hold, i.e. whose scaled decimal expansion is exact.  Messages and
holders are arbitrary strings, `times_passed` an arbitrary integer. -/
theorem loadsToken_dumpsToken (t : Token)
    (h1 : (t.time_elapsed * (10 : Rat) ^ t.time_elapsed.den).den = 1)
    (h2 : (t.timestamp * (10 : Rat) ^ t.timestamp.den).den = 1) :
    loadsToken (dumpsToken t) = some t := by
  have hdata : (dumpsToken t).data =
      chunkMsg ++ (escapeChars t.message.data ++ ('"' :: (chunkHolder ++
        (escapeChars t.holder.data ++ ('"' :: (chunkPasses ++
        ((renderInt t.times_passed).data ++ (chunkElapsed ++
        ((renderRat t.time_elapsed).data ++ (chunkStamp ++
        ((renderRat t.timestamp).data ++ chunkEnd))))))))))) := by
    simp only [dumpsToken, escapeString, String.data_append]
    simp [chunkMsg, chunkHolder, chunkPasses, chunkElapsed, chunkStamp, chunkEnd,
      List.append_assoc]
  have hmsg := parseStrBody_escape t.message.data (chunkHolder ++
    (escapeChars t.holder.data ++ ('"' :: (chunkPasses ++
    ((renderInt t.times_passed).data ++ (chunkElapsed ++
    ((renderRat t.time_elapsed).data ++ (chunkStamp ++
    ((renderRat t.timestamp).data ++ chunkEnd)))))))))
  have hhold := parseStrBody_escape t.holder.data (chunkPasses ++
    ((renderInt t.times_passed).data ++ (chunkElapsed ++
    ((renderRat t.time_elapsed).data ++ (chunkStamp ++
    ((renderRat t.timestamp).data ++ chunkEnd))))))
  have hint := parseIntJ_renderInt t.times_passed (chunkElapsed ++
    ((renderRat t.time_elapsed).data ++ (chunkStamp ++
    ((renderRat t.timestamp).data ++ chunkEnd))))
    (chunkElapsed_not_digit _)
  have hte := parseNum_renderRat t.time_elapsed h1 (chunkStamp ++
    ((renderRat t.timestamp).data ++ chunkEnd))
    (chunkStamp_not_digit _)
  have hts := parseNum_renderRat t.timestamp h2 chunkEnd chunkEnd_not_digit
  simp only [loadsToken, hdata, Option.bind_eq_bind, Option.bind]
  rw [expectChunk_append chunkMsg]
  simp only [Option.bind]
  rw [hmsg]
  simp only [Option.bind]
  rw [expectChunk_append chunkHolder]
  simp only [Option.bind]
  rw [hhold]
  simp only [Option.bind]
  rw [expectChunk_append chunkPasses]
  simp only [Option.bind]
  rw [hint]
  simp only [Option.bind]
  rw [expectChunk_append chunkElapsed]
  simp only [Option.bind]
  rw [hte]
  simp only [Option.bind]
  rw [expectChunk_append chunkStamp]
  simp only [Option.bind]
  rw [hts]
  simp only [Option.bind]
  rw [expectChunk_self chunkEnd]
  simp only [Option.bind, if_pos]

/-- Closed witness for C10 at a concrete token. -/
theorem loadsToken_dumpsToken_witness :
    loadsToken (dumpsToken ⟨"hot potato", "player/0", 3, 0, 0⟩) =
      some ⟨"hot potato", "player/0", 3, 0, 0⟩ :=
  loadsToken_dumpsToken ⟨"hot potato", "player/0", 3, 0, 0⟩
    (by simp [Rat.den_zero]) (by simp [Rat.den_zero])
